import Mathlib

/-!
Verification of the PalletManager utility scripts: a shallow embedding of
`normalize_station_number` (debug_station_lookup.py), the markdown check-digit
extraction and CSV merge pipeline (update_station_csv.py /
verify_import_process.py) and `add_aisle_to_csv` (add_aisle.py).

Python strings are modelled as `List Char`.  The data these scripts handle is
ASCII, so Python's Unicode-aware `str.isdigit`, `str.strip` and regex `\d`
coincide with the ASCII versions used here.
-/

namespace PalletManager

/-- The whitespace characters removed by Python `str.strip()` (ASCII range). -/
def isPySpace (c : Char) : Bool :=
  c == ' ' || c == '\t' || c == '\n' || c == '\r' || c == '\x0b' || c == '\x0c'

/-- Python `str.strip()`: remove leading and trailing whitespace. -/
def pyStrip (l : List Char) : List Char :=
  ((l.dropWhile isPySpace).reverse.dropWhile isPySpace).reverse

/-- Python `input_str.replace("-", "")`. -/
def removeDashes (l : List Char) : List Char := l.filter (fun c => c != '-')

/-- Python `s.split(sep)` for a one-character separator: split at every
occurrence, keeping empty pieces (so `"".split("-") == [""]`). -/
def splitChar (sep : Char) : List Char → List (List Char)
  | [] => [[]]
  | c :: rest =>
    if c == sep then [] :: splitChar sep rest
    else
      match splitChar sep rest with
      | [] => [[c]]
      | p :: ps => (c :: p) :: ps

/-- Python `str.zfill n`: left-pad with `'0'` to length `n`; a leading sign
character keeps its place and the padding is inserted after it. -/
def zfill (n : Nat) (l : List Char) : List Char :=
  if n ≤ l.length then l
  else
    match l with
    | [] => List.replicate n '0'
    | c :: rest =>
      if c == '+' || c == '-' then c :: (List.replicate (n - l.length) '0' ++ rest)
      else List.replicate (n - l.length) '0' ++ l

/-- Python `str.isdigit()` (ASCII): nonempty and all decimal digits. -/
def pyIsDigit (l : List Char) : Bool := !l.isEmpty && l.all Char.isDigit

/-- The output template `f"03-{aisle}-{station}-01"`. -/
def mkResult (a s : List Char) : List Char :=
  ['0', '3', '-'] ++ a ++ ['-'] ++ s ++ ['-', '0', '1']

/-- The `cleaned` value of `normalize_station_number`:
`input_str.replace("-", "").strip()`. -/
def cleanedOf (l : List Char) : List Char := pyStrip (removeDashes l)

/-- The `parts` value: `[part.strip() for part in input_str.split("-")]`. -/
def partsOf (l : List Char) : List (List Char) := (splitChar '-' l).map pyStrip

/-- Shallow embedding of `normalize_station_number` from
`debug_station_lookup.py` (its `print` calls are logging only). -/
def normalize_station_number (l : List Char) : List Char :=
  let cleaned := cleanedOf l
  if cleaned.length = 4 ∧ pyIsDigit cleaned = true then
    mkResult (cleaned.take 2) ((cleaned.drop 2).take 2)
  else
    match partsOf l with
    | [a, s] => mkResult (zfill 2 a) (zfill 2 s)
    | [b, a, s] =>
      if b = ['0', '3'] ∨ b = ['3'] then mkResult (zfill 2 a) (zfill 2 s) else l
    | [b, a, s, p] =>
      if (zfill 2 b = ['0', '3'] ∨ b = ['3']) ∧ (zfill 2 p = ['0', '1'] ∨ p = ['1']) then
        mkResult (zfill 2 a) (zfill 2 s)
      else l
    | _ => l

/-- Shape invariant of the aisle/station segments that
`normalize_station_number` embeds into its canonical output: at least two
characters, hyphen-free, and already whitespace-stripped. -/
def GoodSeg (l : List Char) : Prop :=
  2 ≤ l.length ∧ '-' ∉ l ∧ pyStrip l = l

/-! ### Data model of the markdown-to-CSV pipeline -/

/-- A station record: a (Location Code, Check Digit) pair of strings. -/
abbrev StationRec := List Char × List Char

/-- One line inspected by the regex `(03-\d{2}-\d{2}-01)--(\d+)` compiled with
MULTILINE and an initial anchor in `extract_check_digits_from_md`: a match
must start at the line start; the captured check digit is the maximal digit
run after the double hyphen (the pattern has no end anchor). -/
def parseMdLine (l : List Char) : Option StationRec :=
  match l with
  | '0' :: '3' :: '-' :: a1 :: a2 :: '-' :: s1 :: s2 :: '-' :: '0' :: '1' :: '-' :: '-' :: rest =>
    if a1.isDigit && a2.isDigit && s1.isDigit && s2.isDigit
        && !(rest.takeWhile Char.isDigit).isEmpty then
      some (['0', '3', '-', a1, a2, '-', s1, s2, '-', '0', '1'], rest.takeWhile Char.isDigit)
    else none
  | _ => none

/-- Shallow embedding of `extract_check_digits_from_md` (update_station_csv.py):
the anchored MULTILINE `findall` returns one match per line that starts with
the literal shape, in document order. -/
def extract_check_digits_from_md (content : List Char) : List StationRec :=
  (splitChar '\n' content).filterMap parseMdLine

/-- The station numbers (dict keys) of a record list. -/
def keysOf (m : List StationRec) : List (List Char) := m.map Prod.fst

/-- Association-list lookup (dict access by station number). -/
def lookupRec : List StationRec → List Char → Option (List Char)
  | [], _ => none
  | (c, d) :: m, k => if c = k then some d else lookupRec m k

/-- Python dict assignment `existing_data[station] = check_digit`: replace the
value in place when the key exists, append otherwise (insertion order kept). -/
def updAssoc (m : List StationRec) (c d : List Char) : List StationRec :=
  if c ∈ keysOf m then m.map (fun p => if p.1 = c then (c, d) else p)
  else m ++ [(c, d)]

/-- The merge loop of `update_android_csv`:
`for station, check_digit in station_data: existing_data[station] = check_digit`. -/
def mergeData (existing incoming : List StationRec) : List StationRec :=
  incoming.foldl (fun acc p => updAssoc acc p.1 p.2) existing

/-- Python tuple comparison on (station, check digit) string pairs — the order
used by `sorted(existing_data.items())`. -/
def pairLe (p q : StationRec) : Prop := p.1 < q.1 ∨ (p.1 = q.1 ∧ p.2 ≤ q.2)

instance : DecidableRel pairLe := fun p q => by
  unfold pairLe
  infer_instance

/-- The key-only comparison `key=lambda x: x[0]` used by `add_aisle_to_csv`'s
stable sort. -/
def keyLe (p q : StationRec) : Prop := p.1 ≤ q.1

instance : DecidableRel keyLe := fun p q => by
  unfold keyLe
  infer_instance

/-- The CSV header line `station_number,check_digit`. -/
def csvHeader : List Char :=
  ['s', 't', 'a', 't', 'i', 'o', 'n', '_', 'n', 'u', 'm', 'b', 'e', 'r', ',',
   'c', 'h', 'e', 'c', 'k', '_', 'd', 'i', 'g', 'i', 't']

/-- `csv.writer.writerow([station, check_digit])`: the two cells joined by a
comma (the data written by these scripts never needs quoting). -/
def serializeRow (p : StationRec) : List Char := p.1 ++ ',' :: p.2

/-- The two-column output table as a list of lines: header then one line per
record. -/
def writeTable (recs : List StationRec) : List (List Char) :=
  csvHeader :: recs.map serializeRow

/-- `csv.reader` row consumption as in `simulate_android_import`: the first
two cells of the comma-split line; shorter rows are skipped. -/
def parseRow (l : List Char) : Option StationRec :=
  match splitChar ',' l with
  | a :: b :: _ => some (a, b)
  | _ => none

/-- The records written by `update_android_csv`: the merged data sorted by the
(station, check digit) tuple. -/
def updatedRecords (station_data existing : List StationRec) : List StationRec :=
  List.insertionSort pairLe (mergeData existing station_data)

/-- Shallow embedding of `update_android_csv` (update_station_csv.py): merge
the extracted records into the existing table (last write wins) and write the
result back sorted. -/
def update_android_csv (station_data existing : List StationRec) : List (List Char) :=
  writeTable (updatedRecords station_data existing)

/-- Shallow embedding of `simulate_android_import` (verify_import_process.py):
skip the header, read `(row[0], row[1])` per line, then keep
`(station, check_digit.strip())`. -/
def simulate_android_import (lines : List (List Char)) : List StationRec :=
  ((lines.drop 1).filterMap parseRow).map (fun p => (p.1, pyStrip p.2))

/-- Decimal digit string of a natural number (`str(n)`). -/
def natChars (n : Nat) : List Char := Nat.toDigits 10 n

/-- `f"{n:02d}"`: decimal, zero-padded to width 2. -/
def pad2 (n : Nat) : List Char := zfill 2 (natChars n)

/-- The document `"03-01-01-01--5\n03-01-01-01--6"`: the same code mapped to
two different check digits. -/
def dupDoc : List Char :=
  ['0', '3', '-', '0', '1', '-', '0', '1', '-', '0', '1', '-', '-', '5', '\n',
   '0', '3', '-', '0', '1', '-', '0', '1', '-', '0', '1', '-', '-', '6']

/-- The document `"03-01-01-01--123"`: a three-digit check digit. -/
def longDigitDoc : List Char :=
  ['0', '3', '-', '0', '1', '-', '0', '1', '-', '0', '1', '-', '-', '1', '2', '3']

/-- The document `"03-01-01-01--5"`: a single well-formed line. -/
def oneLineDoc : List Char :=
  ['0', '3', '-', '0', '1', '-', '0', '1', '-', '0', '1', '-', '-', '5']

/-- The `new_stations` loop of `add_aisle_to_csv`: positions enumerate from
`i`, and falsy check digits (`None` or `0`) are skipped. -/
def aisleRows (aisle : Nat) : Nat → List (Option Nat) → List StationRec
  | _, [] => []
  | i, cd :: rest =>
    match cd with
    | some n =>
      if n ≠ 0 then
        (pad2 aisle ++ '-' :: pad2 i, natChars n) :: aisleRows aisle (i + 1) rest
      else aisleRows aisle (i + 1) rest
    | none => aisleRows aisle (i + 1) rest

/-- Shallow embedding of `add_aisle_to_csv` (add_aisle.py): append the new
aisle's rows to the existing data rows (header dropped by the caller), sort by
station number only, and write back under the header.  No deduplication is
performed. -/
def add_aisle_to_csv (aisle : Nat) (check_digits : List (Option Nat))
    (existing_rows : List StationRec) : List (List Char) :=
  writeTable (List.insertionSort keyLe (existing_rows ++ aisleRows aisle 1 check_digits))

/-! ### Lemmas about `zfill` -/

/-- Characterisation of `zfill 2 p = ['0', '3']`: exactly the spellings `"03"`
and `"3"` reach the padded building code. -/
theorem zfill_two_eq_building (p : List Char) :
    zfill 2 p = ['0', '3'] ↔ p = ['0', '3'] ∨ p = ['3'] := by
  match p with
  | [] => decide
  | [c] =>
    have hlen : ¬ (2 ≤ ([c] : List Char).length) := by simp
    simp only [zfill, if_neg hlen, List.length_singleton, Bool.or_eq_true, beq_iff_eq]
    by_cases hc : c = '+' ∨ c = '-'
    · rw [if_pos hc]
      rcases hc with rfl | rfl <;> decide
    · rw [if_neg hc]
      simp [List.replicate]
  | c :: d :: rest =>
    have hlen : 2 ≤ (c :: d :: rest).length := by simp
    simp only [zfill, if_pos hlen]
    constructor
    · exact Or.inl
    · rintro (h | h)
      · exact h
      · exact absurd h (by simp)

/-- Characterisation of `zfill 2 p = ['0', '1']`: exactly the spellings `"01"`
and `"1"` reach the padded position code. -/
theorem zfill_two_eq_position (p : List Char) :
    zfill 2 p = ['0', '1'] ↔ p = ['0', '1'] ∨ p = ['1'] := by
  match p with
  | [] => decide
  | [c] =>
    have hlen : ¬ (2 ≤ ([c] : List Char).length) := by simp
    simp only [zfill, if_neg hlen, List.length_singleton, Bool.or_eq_true, beq_iff_eq]
    by_cases hc : c = '+' ∨ c = '-'
    · rw [if_pos hc]
      rcases hc with rfl | rfl <;> decide
    · rw [if_neg hc]
      simp [List.replicate]
  | c :: d :: rest =>
    have hlen : 2 ≤ (c :: d :: rest).length := by simp
    simp only [zfill, if_pos hlen]
    constructor
    · exact Or.inl
    · rintro (h | h)
      · exact h
      · exact absurd h (by simp)

/-! ### Claim theorems for the Identifier Normalizer -/

/-- C1: whenever the hyphen-removed, whitespace-trimmed remainder of the input
is exactly the four decimal digits `d1 d2 d3 d4`, `normalize_station_number`
returns `03-d1d2-d3d4-01` — unconditionally, with no assumption on how the
input splits on hyphens, so this rule takes precedence over the 2-, 3- and
4-part splitting rules. -/
theorem normalize_four_digit_rule_first (s : List Char) (d1 d2 d3 d4 : Char)
    (h : cleanedOf s = [d1, d2, d3, d4])
    (hd : (d1.isDigit && d2.isDigit && d3.isDigit && d4.isDigit) = true) :
    normalize_station_number s = mkResult [d1, d2] [d3, d4] := by
  simp only [normalize_station_number, h]
  rw [if_pos]
  · rfl
  · refine ⟨rfl, ?_⟩
    simp only [pyIsDigit, List.all_cons, List.all_nil, List.isEmpty_cons, Bool.not_false,
      Bool.true_and, Bool.and_true]
    simp only [Bool.and_eq_true] at hd ⊢
    tauto

/-- Witness for C1 at the input `"40-15"`. -/
theorem normalize_four_digit_rule_first_witness :
    normalize_station_number ['4', '0', '-', '1', '5'] = mkResult ['4', '0'] ['1', '5'] :=
  normalize_four_digit_rule_first ['4', '0', '-', '1', '5'] '4' '0' '1' '5'
    (by decide) (by decide)

/-- C2 counterexample: the input `"5-822"` splits on `"-"` into exactly the
two parts `"5"` and `"822"`, yet `normalize_station_number` does not return
`"03-05-822-01"` (zero-padding each part) — the 4-digit rule fires first on
the hyphen-stripped remainder `"5822"` and returns `"03-58-22-01"`. -/
theorem normalize_two_part_claim_counterexample :
    partsOf ['5', '-', '8', '2', '2'] = [['5'], ['8', '2', '2']] ∧
    normalize_station_number ['5', '-', '8', '2', '2'] =
      ['0', '3', '-', '5', '8', '-', '2', '2', '-', '0', '1'] ∧
    normalize_station_number ['5', '-', '8', '2', '2'] ≠
      mkResult (zfill 2 ['5']) (zfill 2 ['8', '2', '2']) := by
  refine ⟨by decide, by decide, by decide⟩

/-- C2 (amended): for every input that splits on `"-"` into exactly two
(whitespace-trimmed) parts `a` and `b` and whose hyphen-removed trimmed
remainder is not exactly 4 digits, `normalize_station_number` returns
`"03-" ++ zfill 2 a ++ "-" ++ zfill 2 b ++ "-01"`. -/
theorem normalize_two_part_rule (s a b : List Char)
    (h4 : ¬ ((cleanedOf s).length = 4 ∧ pyIsDigit (cleanedOf s) = true))
    (hp : partsOf s = [a, b]) :
    normalize_station_number s = mkResult (zfill 2 a) (zfill 2 b) := by
  simp only [normalize_station_number]
  rw [if_neg h4, hp]

/-- Witness for the amended C2 at the input `"5-82"`. -/
theorem normalize_two_part_rule_witness :
    normalize_station_number ['5', '-', '8', '2'] = mkResult (zfill 2 ['5']) (zfill 2 ['8', '2']) :=
  normalize_two_part_rule ['5', '-', '8', '2'] ['5'] ['8', '2'] (by decide) (by decide)

/-- C3: for every input whose hyphen-stripped trimmed remainder is not exactly
4 digits and that splits on `"-"` into exactly three (trimmed) parts, the
result is canonical when the first part is `"03"` or `"3"`, and the input is
returned unchanged otherwise. -/
theorem normalize_three_part_rule (s p0 p1 p2 : List Char)
    (h4 : ¬ ((cleanedOf s).length = 4 ∧ pyIsDigit (cleanedOf s) = true))
    (hp : partsOf s = [p0, p1, p2]) :
    ((p0 = ['0', '3'] ∨ p0 = ['3']) →
      normalize_station_number s = mkResult (zfill 2 p1) (zfill 2 p2)) ∧
    (¬ (p0 = ['0', '3'] ∨ p0 = ['3']) → normalize_station_number s = s) := by
  simp only [normalize_station_number]
  rw [if_neg h4, hp]
  constructor
  · intro h
    show (if p0 = ['0', '3'] ∨ p0 = ['3'] then mkResult (zfill 2 p1) (zfill 2 p2) else s) = _
    rw [if_pos h]
  · intro h
    show (if p0 = ['0', '3'] ∨ p0 = ['3'] then mkResult (zfill 2 p1) (zfill 2 p2) else s) = _
    rw [if_neg h]

/-- Witness for C3 at the input `"3-57-15"` (and its rejected variant is
covered by the general theorem). -/
theorem normalize_three_part_rule_witness :
    normalize_station_number ['3', '-', '5', '7', '-', '1', '5'] =
      mkResult (zfill 2 ['5', '7']) (zfill 2 ['1', '5']) :=
  (normalize_three_part_rule ['3', '-', '5', '7', '-', '1', '5'] ['3'] ['5', '7'] ['1', '5']
    (by decide) (by decide)).1 (Or.inr rfl)

/-- C4: for every input whose hyphen-stripped trimmed remainder is not exactly
4 digits and that splits on `"-"` into exactly four (trimmed) parts, the
result is canonical when the building part is `"03"` or `"3"` and the position
part is `"01"` or `"1"`, and the input is returned unchanged otherwise. -/
theorem normalize_four_part_rule (s p0 p1 p2 p3 : List Char)
    (h4 : ¬ ((cleanedOf s).length = 4 ∧ pyIsDigit (cleanedOf s) = true))
    (hp : partsOf s = [p0, p1, p2, p3]) :
    ((p0 = ['0', '3'] ∨ p0 = ['3']) ∧ (p3 = ['0', '1'] ∨ p3 = ['1']) →
      normalize_station_number s = mkResult (zfill 2 p1) (zfill 2 p2)) ∧
    (¬ ((p0 = ['0', '3'] ∨ p0 = ['3']) ∧ (p3 = ['0', '1'] ∨ p3 = ['1'])) →
      normalize_station_number s = s) := by
  simp only [normalize_station_number]
  rw [if_neg h4, hp]
  have hcond :
      ((zfill 2 p0 = ['0', '3'] ∨ p0 = ['3']) ∧ (zfill 2 p3 = ['0', '1'] ∨ p3 = ['1'])) ↔
      ((p0 = ['0', '3'] ∨ p0 = ['3']) ∧ (p3 = ['0', '1'] ∨ p3 = ['1'])) := by
    rw [zfill_two_eq_building, zfill_two_eq_position]
    tauto
  constructor
  · intro h
    show (if (zfill 2 p0 = ['0', '3'] ∨ p0 = ['3']) ∧ (zfill 2 p3 = ['0', '1'] ∨ p3 = ['1']) then
        mkResult (zfill 2 p1) (zfill 2 p2) else s) = _
    rw [if_pos (hcond.mpr h)]
  · intro h
    show (if (zfill 2 p0 = ['0', '3'] ∨ p0 = ['3']) ∧ (zfill 2 p3 = ['0', '1'] ∨ p3 = ['1']) then
        mkResult (zfill 2 p1) (zfill 2 p2) else s) = _
    rw [if_neg (fun hc => h (hcond.mp hc))]

/-- Witness for C4 at the input `"3-58-22-1"`. -/
theorem normalize_four_part_rule_witness :
    normalize_station_number ['3', '-', '5', '8', '-', '2', '2', '-', '1'] =
      mkResult (zfill 2 ['5', '8']) (zfill 2 ['2', '2']) :=
  (normalize_four_part_rule ['3', '-', '5', '8', '-', '2', '2', '-', '1']
    ['3'] ['5', '8'] ['2', '2'] ['1'] (by decide) (by decide)).1
    ⟨Or.inr rfl, Or.inr rfl⟩

/-- C5: `normalize_station_number` is a total function on strings (it is a
structurally recursive Lean definition, hence terminating and deterministic),
and every input is either echoed back unchanged or mapped to a string of the
canonical template shape `"03-" ++ a ++ "-" ++ b ++ "-01"` — no input produces
an error. -/
theorem normalize_total_echo_or_canonical (s : List Char) :
    normalize_station_number s = s ∨
    ∃ a b, normalize_station_number s = mkResult a b := by
  simp only [normalize_station_number]
  by_cases h : (cleanedOf s).length = 4 ∧ pyIsDigit (cleanedOf s) = true
  · rw [if_pos h]; exact Or.inr ⟨_, _, rfl⟩
  · rw [if_neg h]
    split
    · exact Or.inr ⟨_, _, rfl⟩
    · split
      · exact Or.inr ⟨_, _, rfl⟩
      · exact Or.inl rfl
    · split
      · exact Or.inr ⟨_, _, rfl⟩
      · exact Or.inl rfl
    · exact Or.inl rfl

/-! ### Character-class lemmas -/

/-- Decimal digits are not whitespace. -/
theorem digit_not_space (c : Char) (h : c.isDigit = true) : isPySpace c = false := by
  cases hsp : isPySpace c
  · rfl
  · exfalso
    simp only [isPySpace, Bool.or_eq_true, beq_iff_eq] at hsp
    rcases hsp with ((((rfl | rfl) | rfl) | rfl) | rfl) | rfl <;> simp [Char.isDigit] at h

/-- Decimal digits are not hyphens. -/
theorem digit_ne_dash (c : Char) (h : c.isDigit = true) : c ≠ '-' := by
  intro heq
  rw [heq] at h
  exact absurd h (by decide)

/-! ### `dropWhile` and `pyStrip` lemmas -/

/-- The head surviving a `dropWhile` falsifies the predicate. -/
theorem dropWhile_head_not (p : Char → Bool) :
    ∀ (l : List Char) (c : Char) (r : List Char), l.dropWhile p = c :: r → p c = false := by
  intro l
  induction l with
  | nil => intro c r h; simp at h
  | cons a l ih =>
    intro c r h
    rw [List.dropWhile_cons] at h
    by_cases ha : p a = true
    · rw [if_pos ha] at h; exact ih c r h
    · rw [if_neg ha] at h
      injection h with h1 _
      rw [← h1]; exact Bool.not_eq_true _ |>.mp ha

/-- `dropWhile` keeps a list whose head falsifies the predicate. -/
theorem dropWhile_eq_self_of_head (p : Char → Bool) (c : Char) (r : List Char)
    (h : p c = false) : (c :: r).dropWhile p = c :: r := by
  rw [List.dropWhile_cons, if_neg (by simp [h])]

/-- `dropWhile` only removes a leading segment. -/
theorem exists_dropWhile_decomposition (p : Char → Bool) :
    ∀ l : List Char, ∃ t, l = t ++ l.dropWhile p := by
  intro l
  induction l with
  | nil => exact ⟨[], rfl⟩
  | cons a l ih =>
    by_cases ha : p a = true
    · obtain ⟨t, ht⟩ := ih
      exact ⟨a :: t, by rw [List.dropWhile_cons, if_pos (by simp [ha])]; simpa using ht⟩
    · exact ⟨[], by rw [List.dropWhile_cons, if_neg (by simp [ha])]; rfl⟩

/-- `dropWhile` is idempotent. -/
theorem dropWhile_idem (p : Char → Bool) (l : List Char) :
    (l.dropWhile p).dropWhile p = l.dropWhile p := by
  cases h : l.dropWhile p with
  | nil => rfl
  | cons c r => exact dropWhile_eq_self_of_head p c r (dropWhile_head_not p l c r h)

/-- The reverse of `pyStrip l` is a `dropWhile` of the reversed
left-stripped list. -/
theorem pyStrip_reverse (l : List Char) :
    (pyStrip l).reverse = ((l.dropWhile isPySpace).reverse).dropWhile isPySpace := by
  simp [pyStrip]

/-- The last character surviving `pyStrip` is not whitespace. -/
theorem pyStrip_last_not (l : List Char) (c : Char) (r : List Char)
    (h : (pyStrip l).reverse = c :: r) : isPySpace c = false := by
  rw [pyStrip_reverse] at h
  exact dropWhile_head_not isPySpace _ c r h

/-- The first character surviving `pyStrip` is not whitespace. -/
theorem pyStrip_head_not (l : List Char) (c : Char) (r : List Char)
    (h : pyStrip l = c :: r) : isPySpace c = false := by
  obtain ⟨t, ht⟩ := exists_dropWhile_decomposition isPySpace (l.dropWhile isPySpace).reverse
  have hrev : l.dropWhile isPySpace = pyStrip l ++ t.reverse := by
    calc l.dropWhile isPySpace
        = ((l.dropWhile isPySpace).reverse).reverse := by rw [List.reverse_reverse]
      _ = (t ++ ((l.dropWhile isPySpace).reverse).dropWhile isPySpace).reverse := by rw [← ht]
      _ = pyStrip l ++ t.reverse := by
          rw [List.reverse_append, ← pyStrip_reverse, List.reverse_reverse]
  rw [h] at hrev
  exact dropWhile_head_not isPySpace l c _ hrev

/-- `pyStrip` fixes a list that is already stripped on both sides. -/
theorem pyStrip_eq_self (l : List Char) (h1 : l.dropWhile isPySpace = l)
    (h2 : l.reverse.dropWhile isPySpace = l.reverse) : pyStrip l = l := by
  rw [pyStrip, h1, h2, List.reverse_reverse]

/-- `pyStrip` is idempotent. -/
theorem pyStrip_idem (l : List Char) : pyStrip (pyStrip l) = pyStrip l := by
  cases h : pyStrip l with
  | nil => rfl
  | cons c r =>
    apply pyStrip_eq_self
    · exact dropWhile_eq_self_of_head isPySpace c r (pyStrip_head_not l c r h)
    · rw [← h, pyStrip_reverse]
      exact dropWhile_idem isPySpace _

/-- Membership in `pyStrip l` implies membership in `l`. -/
theorem mem_of_mem_pyStrip (c : Char) (l : List Char) (h : c ∈ pyStrip l) : c ∈ l := by
  obtain ⟨t, ht⟩ := exists_dropWhile_decomposition isPySpace l
  obtain ⟨u, hu⟩ := exists_dropWhile_decomposition isPySpace (l.dropWhile isPySpace).reverse
  have : c ∈ (l.dropWhile isPySpace).reverse := by
    rw [hu, List.mem_append]
    right
    rw [← pyStrip_reverse]
    simpa using h
  rw [ht, List.mem_append]
  right
  simpa using this

/-! ### `splitChar` lemmas -/

/-- `splitChar` never returns an empty list of pieces. -/
theorem splitChar_ne_nil (sep : Char) (l : List Char) : splitChar sep l ≠ [] := by
  cases l with
  | nil => simp [splitChar]
  | cons c rest =>
    rw [splitChar]
    by_cases h : (c == sep) = true
    · rw [if_pos h]; simp
    · rw [if_neg h]
      cases splitChar sep rest <;> simp

/-- Splitting a separator-free list yields the single piece. -/
theorem splitChar_of_not_mem (sep : Char) (l : List Char) (h : sep ∉ l) :
    splitChar sep l = [l] := by
  induction l with
  | nil => rfl
  | cons c rest ih =>
    have hc : (c == sep) = false := by
      simp only [List.mem_cons, not_or] at h
      exact beq_eq_false_iff_ne.mpr (fun he => h.1 he.symm)
    rw [splitChar, if_neg (by simp [hc])]
    rw [ih (fun hm => h (List.mem_cons_of_mem c hm))]

/-- Splitting `l ++ sep :: r` for separator-free `l` peels off `l`. -/
theorem splitChar_append (sep : Char) (l r : List Char) (h : sep ∉ l) :
    splitChar sep (l ++ sep :: r) = l :: splitChar sep r := by
  induction l with
  | nil => simp [splitChar]
  | cons c rest ih =>
    have hc : (c == sep) = false := by
      simp only [List.mem_cons, not_or] at h
      exact beq_eq_false_iff_ne.mpr (fun he => h.1 he.symm)
    rw [List.cons_append, splitChar, if_neg (by simp [hc]),
      ih (fun hm => h (List.mem_cons_of_mem c hm))]

/-- No piece returned by `splitChar` contains the separator. -/
theorem splitChar_pieces_no_sep (sep : Char) :
    ∀ (l : List Char) (p : List Char), p ∈ splitChar sep l → sep ∉ p := by
  intro l
  induction l with
  | nil =>
    intro p hp
    simp only [splitChar, List.mem_singleton] at hp
    subst hp; simp
  | cons c rest ih =>
    intro p hp
    rw [splitChar] at hp
    by_cases h : (c == sep) = true
    · rw [if_pos h] at hp
      rcases List.mem_cons.mp hp with rfl | hmem
      · simp
      · exact ih p hmem
    · rw [if_neg h] at hp
      have hc : c ≠ sep := by simpa using h
      cases hsp : splitChar sep rest with
      | nil => exact absurd hsp (splitChar_ne_nil sep rest)
      | cons q qs =>
        rw [hsp] at hp
        rcases List.mem_cons.mp hp with rfl | hmem
        · intro hm
          rcases List.mem_cons.mp hm with rfl | hm'
          · exact hc rfl
          · exact ih q (hsp ▸ List.mem_cons_self q qs) hm'
        · exact ih p (hsp ▸ List.mem_cons_of_mem q hmem)

/-! ### `zfill` shape lemmas -/

/-- `zfill` is the identity on lists already long enough. -/
theorem zfill_eq_self_of_le (n : Nat) (l : List Char) (h : n ≤ l.length) :
    zfill n l = l := by
  rw [zfill.eq_def, if_pos h]

/-- `zfill 2` always returns at least two characters. -/
theorem two_le_zfill_length (l : List Char) : 2 ≤ (zfill 2 l).length := by
  match l with
  | [] => decide
  | [c] =>
    have hlen : ¬ (2 ≤ ([c] : List Char).length) := by simp
    simp only [zfill, if_neg hlen, List.length_singleton, Bool.or_eq_true, beq_iff_eq]
    by_cases hc : c = '+' ∨ c = '-'
    · rw [if_pos hc]
      show 2 ≤ ([c, '0'] : List Char).length
      simp
    · rw [if_neg hc]
      show 2 ≤ (['0', c] : List Char).length
      simp
  | c :: d :: rest =>
    rw [zfill_eq_self_of_le 2 _ (by simp)]
    simp

/-- `zfill 2` introduces no hyphen into a hyphen-free list. -/
theorem zfill_two_no_dash (l : List Char) (h : '-' ∉ l) : '-' ∉ zfill 2 l := by
  match l with
  | [] => decide
  | [c] =>
    have hlen : ¬ (2 ≤ ([c] : List Char).length) := by simp
    simp only [zfill, if_neg hlen, List.length_singleton, Bool.or_eq_true, beq_iff_eq]
    by_cases hc : c = '+' ∨ c = '-'
    · rw [if_pos hc]
      show '-' ∉ ([c, '0'] : List Char)
      intro hm
      rcases List.mem_cons.mp hm with heq | hm'
      · exact h (List.mem_singleton.mpr heq)
      · exact absurd (List.mem_singleton.mp hm') (by decide)
    · rw [if_neg hc]
      show '-' ∉ (['0', c] : List Char)
      intro hm
      rcases List.mem_cons.mp hm with heq | hm'
      · exact absurd heq (by decide)
      · exact h (List.mem_singleton.mp hm' ▸ List.mem_singleton.mpr rfl)
  | c :: d :: rest =>
    rw [zfill_eq_self_of_le 2 _ (by simp)]
    exact h

/-- `zfill 2` of a stripped list is stripped. -/
theorem zfill_two_stripped (l : List Char) (h : pyStrip l = l) :
    pyStrip (zfill 2 l) = zfill 2 l := by
  match l with
  | [] => decide
  | [c] =>
    have hlen : ¬ (2 ≤ ([c] : List Char).length) := by simp
    have hcs : isPySpace c = false := pyStrip_head_not [c] c [] h
    simp only [zfill, if_neg hlen, List.length_singleton, Bool.or_eq_true, beq_iff_eq]
    by_cases hc : c = '+' ∨ c = '-'
    · rw [if_pos hc]
      show pyStrip [c, '0'] = [c, '0']
      apply pyStrip_eq_self
      · exact dropWhile_eq_self_of_head isPySpace c _ hcs
      · show (['0', c] : List Char).dropWhile isPySpace = ['0', c]
        exact dropWhile_eq_self_of_head isPySpace '0' _ (by decide)
    · rw [if_neg hc]
      show pyStrip ['0', c] = ['0', c]
      apply pyStrip_eq_self
      · exact dropWhile_eq_self_of_head isPySpace '0' _ (by decide)
      · show ([c, '0'] : List Char).dropWhile isPySpace = [c, '0']
        exact dropWhile_eq_self_of_head isPySpace c _ hcs
  | c :: d :: rest =>
    rw [zfill_eq_self_of_le 2 _ (by simp)]
    exact h

/-! ### The canonical template is a fixed point -/

/-- Cons-normal form of the canonical template. -/
theorem mkResult_decomp (a b : List Char) :
    mkResult a b = ['0', '3'] ++ '-' :: (a ++ '-' :: (b ++ '-' :: ['0', '1'])) := by
  simp [mkResult]

/-- `removeDashes` distributes over append. -/
theorem removeDashes_append (l r : List Char) :
    removeDashes (l ++ r) = removeDashes l ++ removeDashes r := by
  simp [removeDashes]

/-- `removeDashes` fixes a hyphen-free list. -/
theorem removeDashes_of_no_dash (l : List Char) (h : '-' ∉ l) : removeDashes l = l := by
  rw [removeDashes, List.filter_eq_self]
  intro a ha
  simp only [bne_iff_ne, ne_eq]
  exact fun heq => h (heq ▸ ha)

/-- The `cleaned` value of a canonical template: hyphens removed, nothing
stripped because the remainder starts with `'0'` and ends with `'1'`. -/
theorem cleanedOf_mkResult (a b : List Char) (ha : '-' ∉ a) (hb : '-' ∉ b) :
    cleanedOf (mkResult a b) = '0' :: '3' :: (a ++ b ++ ['0', '1']) := by
  have hrm : removeDashes (mkResult a b) = '0' :: '3' :: (a ++ b ++ ['0', '1']) := by
    rw [mkResult_decomp]
    rw [show (['0', '3'] ++ '-' :: (a ++ '-' :: (b ++ '-' :: ['0', '1'])) : List Char) =
      ['0', '3'] ++ ['-'] ++ a ++ ['-'] ++ b ++ ['-'] ++ ['0', '1'] from by simp]
    rw [removeDashes_append, removeDashes_append, removeDashes_append,
      removeDashes_append, removeDashes_append, removeDashes_append]
    rw [removeDashes_of_no_dash a ha, removeDashes_of_no_dash b hb]
    rw [show removeDashes ['0', '3'] = ['0', '3'] from by decide,
      show removeDashes ['-'] = [] from by decide,
      show removeDashes ['0', '1'] = ['0', '1'] from by decide]
    simp
  rw [cleanedOf, hrm]
  apply pyStrip_eq_self
  · exact dropWhile_eq_self_of_head isPySpace '0' _ (by decide)
  · have hrev : ('0' :: '3' :: (a ++ b ++ ['0', '1'])).reverse =
        '1' :: ('0' :: (b.reverse ++ (a.reverse ++ ['3', '0']))) := by
      simp
    rw [hrev]
    exact dropWhile_eq_self_of_head isPySpace '1' _ (by decide)

/-- The `parts` value of a canonical template built from hyphen-free stripped
segments: exactly the four expected parts. -/
theorem partsOf_mkResult (a b : List Char) (ha : '-' ∉ a) (hb : '-' ∉ b)
    (hsa : pyStrip a = a) (hsb : pyStrip b = b) :
    partsOf (mkResult a b) = [['0', '3'], a, b, ['0', '1']] := by
  rw [partsOf, mkResult_decomp]
  rw [splitChar_append '-' ['0', '3'] _ (by decide), splitChar_append '-' a _ ha,
    splitChar_append '-' b _ hb, splitChar_of_not_mem '-' ['0', '1'] (by decide)]
  have h03 : pyStrip ['0', '3'] = ['0', '3'] := by decide
  have h01 : pyStrip ['0', '1'] = ['0', '1'] := by decide
  simp [hsa, hsb, h03, h01]

/-- Normalizing a canonical template built from good segments returns it
unchanged: the 4-digit rule cannot fire (the cleaned remainder has at least 8
characters) and the 4-part rule accepts building `03` and position `01`. -/
theorem normalize_fixes_canonical (a b : List Char)
    (ha2 : 2 ≤ a.length) (had : '-' ∉ a) (has : pyStrip a = a)
    (hb2 : 2 ≤ b.length) (hbd : '-' ∉ b) (hbs : pyStrip b = b) :
    normalize_station_number (mkResult a b) = mkResult a b := by
  have hclean := cleanedOf_mkResult a b had hbd
  have hne : ¬ ((cleanedOf (mkResult a b)).length = 4 ∧
      pyIsDigit (cleanedOf (mkResult a b)) = true) := by
    rintro ⟨hl, -⟩
    rw [hclean] at hl
    simp at hl
    omega
  simp only [normalize_station_number]
  rw [if_neg hne, partsOf_mkResult a b had hbd has hbs]
  show (if (zfill 2 ['0', '3'] = ['0', '3'] ∨ (['0', '3'] : List Char) = ['3']) ∧
      (zfill 2 ['0', '1'] = ['0', '1'] ∨ (['0', '1'] : List Char) = ['1']) then
      mkResult (zfill 2 a) (zfill 2 b) else mkResult a b) = mkResult a b
  rw [if_pos ⟨Or.inl (by decide), Or.inl (by decide)⟩,
    zfill_eq_self_of_le 2 a ha2, zfill_eq_self_of_le 2 b hb2]

/-! ### Every output of the normalizer is an echo or a good template -/

/-- Destructor for length-4 lists. -/
theorem list_length_four (l : List Char) (h : l.length = 4) :
    ∃ c1 c2 c3 c4, l = [c1, c2, c3, c4] := by
  match l with
  | [c1, c2, c3, c4] => exact ⟨c1, c2, c3, c4, rfl⟩
  | [] => simp at h
  | [_] => simp at h
  | [_, _] => simp at h
  | [_, _, _] => simp at h
  | _ :: _ :: _ :: _ :: _ :: rest => simp at h

/-- A pair of decimal digits is a good segment. -/
theorem goodSeg_digit_pair (c d : Char) (hc : c.isDigit = true) (hd : d.isDigit = true) :
    GoodSeg [c, d] := by
  refine ⟨by simp, ?_, ?_⟩
  · intro hm
    rcases List.mem_cons.mp hm with heq | hm'
    · exact digit_ne_dash c hc heq.symm
    · exact digit_ne_dash d hd (List.mem_singleton.mp hm').symm
  · apply pyStrip_eq_self
    · exact dropWhile_eq_self_of_head isPySpace c _ (digit_not_space c hc)
    · show ([d, c] : List Char).dropWhile isPySpace = [d, c]
      exact dropWhile_eq_self_of_head isPySpace d _ (digit_not_space d hd)

/-- Zero-padding a part of the split input yields a good segment. -/
theorem goodSeg_zfill_part (s x : List Char) (hx : x ∈ partsOf s) :
    GoodSeg (zfill 2 x) := by
  obtain ⟨q, hq, rfl⟩ := List.mem_map.mp hx
  have hqd : '-' ∉ q := splitChar_pieces_no_sep '-' s q hq
  refine ⟨two_le_zfill_length _, zfill_two_no_dash _ ?_, zfill_two_stripped _ (pyStrip_idem q)⟩
  intro hm
  exact hqd (mem_of_mem_pyStrip '-' q hm)

/-- Every run of the normalizer either echoes the input or produces a
canonical template whose segments are good. -/
theorem normalize_shape (s : List Char) :
    normalize_station_number s = s ∨
    ∃ a b, GoodSeg a ∧ GoodSeg b ∧ normalize_station_number s = mkResult a b := by
  simp only [normalize_station_number]
  by_cases h : (cleanedOf s).length = 4 ∧ pyIsDigit (cleanedOf s) = true
  · rw [if_pos h]
    obtain ⟨hl, hdig⟩ := h
    obtain ⟨d1, d2, d3, d4, hclean⟩ := list_length_four _ hl
    rw [hclean] at hdig
    simp only [pyIsDigit, List.isEmpty_cons, Bool.not_false, List.all_cons, List.all_nil,
      Bool.and_true, Bool.true_and, Bool.and_eq_true] at hdig
    obtain ⟨h1, h2, h3, h4⟩ := hdig
    right
    refine ⟨[d1, d2], [d3, d4], goodSeg_digit_pair d1 d2 h1 h2,
      goodSeg_digit_pair d3 d4 h3 h4, ?_⟩
    rw [hclean]
    rfl
  · rw [if_neg h]
    split
    · next a b heq =>
      right
      refine ⟨zfill 2 a, zfill 2 b, ?_, ?_, rfl⟩
      · exact goodSeg_zfill_part s a (by rw [heq]; simp)
      · exact goodSeg_zfill_part s b (by rw [heq]; simp)
    · next b0 a b heq =>
      split
      · right
        refine ⟨zfill 2 a, zfill 2 b, ?_, ?_, rfl⟩
        · exact goodSeg_zfill_part s a (by rw [heq]; simp)
        · exact goodSeg_zfill_part s b (by rw [heq]; simp)
      · exact Or.inl rfl
    · next b0 a b p heq =>
      split
      · right
        refine ⟨zfill 2 a, zfill 2 b, ?_, ?_, rfl⟩
        · exact goodSeg_zfill_part s a (by rw [heq]; simp)
        · exact goodSeg_zfill_part s b (by rw [heq]; simp)
      · exact Or.inl rfl
    · exact Or.inl rfl

/-- C6: `normalize_station_number` is idempotent on every input; in particular
every canonical 4-part string such as `"03-58-22-01"` is a fixed point. -/
theorem normalize_idempotent (s : List Char) :
    normalize_station_number (normalize_station_number s) = normalize_station_number s := by
  rcases normalize_shape s with h | ⟨a, b, ha, hb, h⟩
  · rw [h]
    exact h
  · rw [h]
    exact normalize_fixes_canonical a b ha.1 ha.2.1 ha.2.2 hb.1 hb.2.1 hb.2.2

/-! ### Dictionary-merge lemmas -/

/-- Unfolding equation of `lookupRec` on an arbitrary head record. -/
theorem lookupRec_cons (p : StationRec) (m : List StationRec) (k : List Char) :
    lookupRec (p :: m) k = if p.1 = k then some p.2 else lookupRec m k := by
  obtain ⟨c, d⟩ := p
  rfl

/-- A successful lookup exhibits a member of the association list. -/
theorem lookupRec_mem (m : List StationRec) (k d : List Char)
    (h : lookupRec m k = some d) : (k, d) ∈ m := by
  induction m with
  | nil => simp [lookupRec] at h
  | cons p m ih =>
    rw [lookupRec_cons] at h
    by_cases hc : p.1 = k
    · rw [if_pos hc] at h
      injection h with h
      have hpk : p = (k, d) := by
        obtain ⟨pc, pd⟩ := p
        simp only at hc h
        rw [hc, h]
      rw [← hpk]
      exact List.mem_cons_self p m
    · rw [if_neg hc] at h
      exact List.mem_cons_of_mem p (ih h)

/-- A key present in the list has a successful lookup. -/
theorem lookupRec_is_some (m : List StationRec) (k : List Char) (h : k ∈ keysOf m) :
    ∃ d, lookupRec m k = some d := by
  induction m with
  | nil => simp [keysOf] at h
  | cons p m ih =>
    rw [lookupRec_cons]
    by_cases hc : p.1 = k
    · exact ⟨p.2, by rw [if_pos hc]⟩
    · rw [if_neg hc]
      apply ih
      rcases List.mem_cons.mp h with heq | hm
      · exact absurd heq.symm hc
      · exact hm

/-- With duplicate-free keys, lookup agrees with membership. -/
theorem lookupRec_eq_some_iff (m : List StationRec) (k d : List Char)
    (hnd : (keysOf m).Nodup) : lookupRec m k = some d ↔ (k, d) ∈ m := by
  constructor
  · exact lookupRec_mem m k d
  · intro hmem
    induction m with
    | nil => cases hmem
    | cons p m ih =>
      rw [lookupRec_cons]
      rcases List.mem_cons.mp hmem with heq | hm
      · rw [if_pos (by rw [← heq])]
        rw [← heq]
      · have hk : k ∈ keysOf m := List.mem_map_of_mem Prod.fst hm
        have hne : p.1 ≠ k := by
          intro hpk
          have : p.1 ∉ keysOf m := (List.nodup_cons.mp hnd).1
          exact this (hpk ▸ hk)
        rw [if_neg hne]
        exact ih (List.nodup_cons.mp hnd).2 hm

/-- Replacing the value at key `c` leaves the key list unchanged. -/
theorem keysOf_map_upd (m : List StationRec) (c d : List Char) :
    keysOf (m.map (fun p => if p.1 = c then (c, d) else p)) = keysOf m := by
  induction m with
  | nil => rfl
  | cons p m ih =>
    simp only [keysOf, List.map_cons] at ih ⊢
    by_cases h : p.1 = c
    · rw [if_pos h, ih]
      simp [h]
    · rw [if_neg h, ih]

/-- Key membership in an assignment result. -/
theorem mem_keysOf_updAssoc (m : List StationRec) (c d k : List Char) :
    k ∈ keysOf (updAssoc m c d) ↔ k ∈ keysOf m ∨ k = c := by
  rw [updAssoc]
  by_cases h : c ∈ keysOf m
  · rw [if_pos h, keysOf_map_upd]
    constructor
    · exact Or.inl
    · rintro (hk | rfl)
      · exact hk
      · exact h
  · rw [if_neg h]
    simp [keysOf]

/-- Assignment preserves duplicate-freeness of the keys. -/
theorem nodup_keysOf_updAssoc (m : List StationRec) (c d : List Char)
    (h : (keysOf m).Nodup) : (keysOf (updAssoc m c d)).Nodup := by
  rw [updAssoc]
  by_cases hc : c ∈ keysOf m
  · rw [if_pos hc, keysOf_map_upd]
    exact h
  · rw [if_neg hc]
    have : keysOf (m ++ [(c, d)]) = keysOf m ++ [c] := by simp [keysOf]
    rw [this]
    simp only [List.nodup_append, List.nodup_cons, List.not_mem_nil, not_false_iff,
      List.nodup_nil, and_true, true_and]
    exact ⟨h, fun a ha heq => hc ((List.mem_singleton.mp heq) ▸ ha)⟩

/-- Assignment at key `c` makes lookup of `c` return the new value. -/
theorem lookupRec_updAssoc_self (m : List StationRec) (c d : List Char) :
    lookupRec (updAssoc m c d) c = some d := by
  rw [updAssoc]
  by_cases h : c ∈ keysOf m
  · rw [if_pos h]
    induction m with
    | nil => simp [keysOf] at h
    | cons p m ih =>
      by_cases hp : p.1 = c
      · simp only [List.map_cons, if_pos hp]
        rw [lookupRec_cons, if_pos rfl]
      · simp only [List.map_cons, if_neg hp]
        rw [lookupRec_cons, if_neg hp]
        apply ih
        rcases List.mem_cons.mp h with heq | hm
        · exact absurd heq.symm hp
        · exact hm
  · rw [if_neg h]
    induction m with
    | nil => rw [List.nil_append, lookupRec_cons, if_pos rfl]
    | cons p m ih =>
      have hp : p.1 ≠ c := by
        intro hpc
        exact h (hpc ▸ List.mem_cons_self p.1 (keysOf m))
      rw [List.cons_append, lookupRec_cons, if_neg hp]
      exact ih (fun hm => h (List.mem_cons_of_mem p.1 hm))

/-- Value replacement at key `c` does not change lookups of other keys. -/
theorem lookupRec_map_upd_other (m : List StationRec) (c d k : List Char)
    (hk : k ≠ c) :
    lookupRec (m.map (fun p => if p.1 = c then (c, d) else p)) k = lookupRec m k := by
  induction m with
  | nil => rfl
  | cons p m ih =>
    simp only [List.map_cons]
    by_cases hp : p.1 = c
    · rw [if_pos hp, lookupRec_cons, lookupRec_cons,
        if_neg (show ¬ ((c, d).1 = k) from fun heq => hk heq.symm),
        if_neg (show ¬ (p.1 = k) from fun heq => hk ((hp ▸ heq).symm)), ih]
    · rw [if_neg hp, lookupRec_cons, lookupRec_cons]
      by_cases hpk : p.1 = k
      · rw [if_pos hpk, if_pos hpk]
      · rw [if_neg hpk, if_neg hpk, ih]

/-- Appending a new record does not change lookups of other keys. -/
theorem lookupRec_append_single_other (m : List StationRec) (c d k : List Char)
    (hk : k ≠ c) : lookupRec (m ++ [(c, d)]) k = lookupRec m k := by
  induction m with
  | nil =>
    rw [List.nil_append, lookupRec_cons,
      if_neg (show ¬ ((c, d).1 = k) from fun heq => hk heq.symm)]
  | cons p m ih =>
    rw [List.cons_append, lookupRec_cons, lookupRec_cons]
    by_cases hpk : p.1 = k
    · rw [if_pos hpk, if_pos hpk]
    · rw [if_neg hpk, if_neg hpk, ih]

/-- Assignment at key `c` does not change lookups of other keys. -/
theorem lookupRec_updAssoc_other (m : List StationRec) (c d k : List Char)
    (hk : k ≠ c) : lookupRec (updAssoc m c d) k = lookupRec m k := by
  rw [updAssoc]
  by_cases h : c ∈ keysOf m
  · rw [if_pos h]
    exact lookupRec_map_upd_other m c d k hk
  · rw [if_neg h]
    exact lookupRec_append_single_other m c d k hk

/-- Every record of an assignment result is an old record or the new pair. -/
theorem mem_updAssoc (m : List StationRec) (c d : List Char) (p : StationRec)
    (h : p ∈ updAssoc m c d) : p ∈ m ∨ p = (c, d) := by
  rw [updAssoc] at h
  by_cases hc : c ∈ keysOf m
  · rw [if_pos hc] at h
    obtain ⟨q, hq, hfq⟩ := List.mem_map.mp h
    by_cases hqc : q.1 = c
    · rw [if_pos hqc] at hfq
      exact Or.inr hfq.symm
    · rw [if_neg hqc] at hfq
      exact Or.inl (hfq ▸ hq)
  · rw [if_neg hc] at h
    rcases List.mem_append.mp h with hm | hm
    · exact Or.inl hm
    · exact Or.inr (List.mem_singleton.mp hm)

/-- Unfolding equation of the merge loop. -/
theorem mergeData_cons (e : List StationRec) (p : StationRec) (inc : List StationRec) :
    mergeData e (p :: inc) = mergeData (updAssoc e p.1 p.2) inc := rfl

/-- Merging does not affect lookups of keys absent from the incoming data. -/
theorem lookupRec_mergeData_not_mem (inc : List StationRec) (k : List Char)
    (hk : k ∉ keysOf inc) :
    ∀ e, lookupRec (mergeData e inc) k = lookupRec e k := by
  induction inc with
  | nil => intro e; rfl
  | cons p inc ih =>
    intro e
    rw [mergeData_cons]
    have hk1 : k ∉ keysOf inc := fun hm => hk (List.mem_cons_of_mem p.1 hm)
    have hk2 : k ≠ p.1 := fun heq => hk (heq ▸ List.mem_cons_self p.1 (keysOf inc))
    rw [ih hk1 (updAssoc e p.1 p.2), lookupRec_updAssoc_other e p.1 p.2 k hk2]

/-- Last write wins: when the incoming records carry duplicate-free keys, the
merged table maps each incoming key to the incoming value. -/
theorem lookupRec_mergeData_incoming (inc : List StationRec) (c d : List Char)
    (hnd : (keysOf inc).Nodup) (hmem : (c, d) ∈ inc) :
    ∀ e, lookupRec (mergeData e inc) c = some d := by
  induction inc with
  | nil => cases hmem
  | cons p inc ih =>
    intro e
    rw [mergeData_cons]
    rcases List.mem_cons.mp hmem with heq | hm
    · have hc : c ∉ keysOf inc := by
        have := (List.nodup_cons.mp hnd).1
        rw [← heq] at this
        exact this
      rw [lookupRec_mergeData_not_mem inc c hc (updAssoc e p.1 p.2), ← heq,
        lookupRec_updAssoc_self]
    · exact ih (List.nodup_cons.mp hnd).2 hm (updAssoc e p.1 p.2)

/-- Keys of the merged table are the union of the two key sets. -/
theorem mem_keysOf_mergeData (inc : List StationRec) (k : List Char) :
    ∀ e, k ∈ keysOf (mergeData e inc) ↔ k ∈ keysOf e ∨ k ∈ keysOf inc := by
  induction inc with
  | nil => intro e; simp [mergeData, keysOf]
  | cons p inc ih =>
    intro e
    rw [mergeData_cons, ih (updAssoc e p.1 p.2)]
    rw [mem_keysOf_updAssoc]
    constructor
    · rintro ((hk | rfl) | hk)
      · exact Or.inl hk
      · exact Or.inr (List.mem_cons_self p.1 (keysOf inc))
      · exact Or.inr (List.mem_cons_of_mem p.1 hk)
    · rintro (hk | hk)
      · exact Or.inl (Or.inl hk)
      · rcases List.mem_cons.mp hk with heq | hm
        · exact Or.inl (Or.inr heq)
        · exact Or.inr hm

/-- Merging preserves duplicate-freeness of the keys. -/
theorem nodup_keysOf_mergeData (inc : List StationRec) :
    ∀ e, (keysOf e).Nodup → (keysOf (mergeData e inc)).Nodup := by
  induction inc with
  | nil => intro e he; exact he
  | cons p inc ih =>
    intro e he
    rw [mergeData_cons]
    exact ih (updAssoc e p.1 p.2) (nodup_keysOf_updAssoc e p.1 p.2 he)

/-- Every record of the merged table comes from one of the two sources. -/
theorem mem_mergeData (inc : List StationRec) (p : StationRec) :
    ∀ e, p ∈ mergeData e inc → p ∈ e ∨ p ∈ inc := by
  induction inc with
  | nil => intro e h; exact Or.inl h
  | cons q inc ih =>
    intro e h
    rw [mergeData_cons] at h
    rcases ih (updAssoc e q.1 q.2) h with hm | hm
    · rcases mem_updAssoc e q.1 q.2 p hm with hm' | hm'
      · exact Or.inl hm'
      · exact Or.inr (by rw [hm']; exact List.mem_cons_self q inc)
    · exact Or.inr (List.mem_cons_of_mem q hm)

/-- Record count of the merged table: the cardinality of the union of the two
sources' key sets (never double-counting a key present in both). -/
theorem mergeData_length (inc e : List StationRec) (he : (keysOf e).Nodup) :
    (mergeData e inc).length = ((keysOf e).toFinset ∪ (keysOf inc).toFinset).card := by
  have hlen : (mergeData e inc).length = (keysOf (mergeData e inc)).length := by
    simp [keysOf]
  have hnd := nodup_keysOf_mergeData inc e he
  have hfin : (keysOf (mergeData e inc)).toFinset =
      (keysOf e).toFinset ∪ (keysOf inc).toFinset := by
    ext k
    simp only [List.mem_toFinset, Finset.mem_union]
    exact mem_keysOf_mergeData inc k e
  rw [hlen, ← List.toFinset_card_of_nodup hnd, hfin]

/-! ### Extraction and serialization lemmas -/

/-- Decimal digits are not commas. -/
theorem digit_ne_comma (c : Char) (h : c.isDigit = true) : c ≠ ',' := by
  intro heq
  rw [heq] at h
  exact absurd h (by decide)

/-- A list of non-whitespace characters is already stripped. -/
theorem pyStrip_of_forall (l : List Char) (h : ∀ c ∈ l, isPySpace c = false) :
    pyStrip l = l := by
  match l with
  | [] => rfl
  | c :: r =>
    apply pyStrip_eq_self
    · exact dropWhile_eq_self_of_head isPySpace c r (h c (List.mem_cons_self c r))
    · cases hrev : (c :: r).reverse with
      | nil => exact absurd hrev (by simp)
      | cons x xs =>
        apply dropWhile_eq_self_of_head
        apply h
        exact List.mem_reverse.mp (hrev ▸ List.mem_cons_self x xs)

/-- Every element of a `takeWhile` satisfies the predicate. -/
theorem mem_takeWhile_pred (p : Char → Bool) :
    ∀ (l : List Char) (x : Char), x ∈ l.takeWhile p → p x = true := by
  intro l
  induction l with
  | nil => intro x hx; simp at hx
  | cons c r ih =>
    intro x hx
    rw [List.takeWhile_cons] at hx
    by_cases hc : p c = true
    · rw [if_pos hc] at hx
      rcases List.mem_cons.mp hx with rfl | hx'
      · exact hc
      · exact ih x hx'
    · rw [if_neg hc] at hx
      simp at hx

/-- Inversion of a successful line match: the check digit is a nonempty digit
string and the code has the literal canonical shape. -/
theorem parseMdLine_some (l : List Char) (c d : List Char)
    (h : parseMdLine l = some (c, d)) :
    d ≠ [] ∧ (∀ x ∈ d, x.isDigit = true) ∧
    ∃ a1 a2 s1 s2, a1.isDigit = true ∧ a2.isDigit = true ∧ s1.isDigit = true ∧
      s2.isDigit = true ∧ c = ['0', '3', '-', a1, a2, '-', s1, s2, '-', '0', '1'] := by
  unfold parseMdLine at h
  split at h
  · rename_i a1 a2 s1 s2 rest
    split at h
    · rename_i hcond
      rw [Option.some.injEq, Prod.mk.injEq] at h
      obtain ⟨hc, hd⟩ := h
      simp only [Bool.and_eq_true, Bool.not_eq_true'] at hcond
      obtain ⟨⟨⟨⟨h1, h2⟩, h3⟩, h4⟩, h5⟩ := hcond
      rw [hd] at h5
      refine ⟨?_, ?_, a1, a2, s1, s2, h1, h2, h3, h4, hc.symm⟩
      · intro hnil
        rw [hnil] at h5
        exact absurd h5 (by decide)
      · intro x hx
        rw [← hd] at hx
        exact mem_takeWhile_pred Char.isDigit rest x hx
    · exact absurd h (by simp)
  · exact absurd h (by simp)

/-- Every extracted record comes from a matching line of the document. -/
theorem mem_extract (doc : List Char) (p : StationRec)
    (h : p ∈ extract_check_digits_from_md doc) :
    ∃ line ∈ splitChar '\n' doc, parseMdLine line = some p := by
  rw [extract_check_digits_from_md] at h
  exact List.mem_filterMap.mp h

/-- Serialization invariants of an extracted record: the code and the check
digit are comma-free, and the check digit is strip-invariant. -/
theorem extract_record_inv (doc : List Char) (p : StationRec)
    (h : p ∈ extract_check_digits_from_md doc) :
    ',' ∉ p.1 ∧ ',' ∉ p.2 ∧ pyStrip p.2 = p.2 := by
  obtain ⟨line, -, hp⟩ := mem_extract doc p h
  obtain ⟨c, d⟩ := p
  obtain ⟨-, hdig, a1, a2, s1, s2, h1, h2, h3, h4, hcode⟩ := parseMdLine_some line c d hp
  refine ⟨?_, ?_, ?_⟩
  · rw [hcode]
    intro hm
    simp only [List.mem_cons, List.not_mem_nil, or_false] at hm
    rcases hm with he | he | he | he | he | he | he | he | he | he | he
    · exact absurd he (by decide)
    · exact absurd he (by decide)
    · exact absurd he (by decide)
    · exact digit_ne_comma a1 h1 he.symm
    · exact digit_ne_comma a2 h2 he.symm
    · exact absurd he (by decide)
    · exact digit_ne_comma s1 h3 he.symm
    · exact digit_ne_comma s2 h4 he.symm
    · exact absurd he (by decide)
    · exact absurd he (by decide)
    · exact absurd he (by decide)
  · intro hm
    exact absurd (hdig ',' hm) (by decide)
  · exact pyStrip_of_forall d (fun x hx => digit_not_space x (hdig x hx))

/-- Parsing a serialized row with comma-free cells recovers the record. -/
theorem parseRow_serializeRow (p : StationRec) (hc : ',' ∉ p.1) (hd : ',' ∉ p.2) :
    parseRow (serializeRow p) = some (p.1, p.2) := by
  unfold parseRow serializeRow
  rw [splitChar_append ',' p.1 p.2 hc, splitChar_of_not_mem ',' p.2 hd]

/-- Reading back serialized rows with the import simulation recovers the
records, provided each record is comma-free and has a stripped check digit. -/
theorem readRows : ∀ recs : List StationRec,
    (∀ p ∈ recs, ',' ∉ p.1 ∧ ',' ∉ p.2 ∧ pyStrip p.2 = p.2) →
    ((recs.map serializeRow).filterMap parseRow).map (fun q => (q.1, pyStrip q.2)) = recs := by
  intro recs
  induction recs with
  | nil => intro _; rfl
  | cons p recs ih =>
    intro hinv
    obtain ⟨hc, hd, hs⟩ := hinv p (List.mem_cons_self p recs)
    rw [List.map_cons, List.filterMap_cons_some (parseRow_serializeRow p hc hd),
      List.map_cons, ih (fun q hq => hinv q (List.mem_cons_of_mem p hq))]
    show ((p.1, pyStrip p.2) :: recs) = p :: recs
    rw [hs]

/-- The import simulation inverts table writing on comma-free records. -/
theorem simulate_writeTable (recs : List StationRec)
    (hinv : ∀ p ∈ recs, ',' ∉ p.1 ∧ ',' ∉ p.2 ∧ pyStrip p.2 = p.2) :
    simulate_android_import (writeTable recs) = recs := by
  rw [simulate_android_import, writeTable]
  exact readRows recs hinv

/-! ### Order facts for the two sorts -/

instance : IsTotal StationRec pairLe :=
  ⟨fun p q => by
    unfold pairLe
    rcases lt_trichotomy p.1 q.1 with h | h | h
    · exact Or.inl (Or.inl h)
    · rcases le_total p.2 q.2 with h2 | h2
      · exact Or.inl (Or.inr ⟨h, h2⟩)
      · exact Or.inr (Or.inr ⟨h.symm, h2⟩)
    · exact Or.inr (Or.inl h)⟩

instance : IsTrans StationRec pairLe :=
  ⟨fun p q r hpq hqr => by
    unfold pairLe at hpq hqr ⊢
    rcases hpq with h | ⟨he, h2⟩
    · rcases hqr with h' | ⟨he', h2'⟩
      · exact Or.inl (h.trans h')
      · exact Or.inl (he' ▸ h)
    · rcases hqr with h' | ⟨he', h2'⟩
      · exact Or.inl (he ▸ h')
      · exact Or.inr ⟨he.trans he', h2.trans h2'⟩⟩

instance : IsTotal StationRec keyLe :=
  ⟨fun p q => le_total p.1 q.1⟩

instance : IsTrans StationRec keyLe :=
  ⟨fun _ _ _ h1 h2 => le_trans h1 h2⟩

/-! ### Claim theorems for the markdown-to-CSV pipeline -/

/-- C7 counterexample: on the document `dupDoc`, which maps the code
`03-01-01-01` to check digit `5` on one line and `6` on another, the pair
`(03-01-01-01, 5)` is extracted but does not survive the
write-then-reparse round trip — the merge keeps only the last write, so the
round trip does not preserve the set of extracted pairs for every document. -/
theorem md_roundtrip_counterexample :
    (['0', '3', '-', '0', '1', '-', '0', '1', '-', '0', '1'], ['5']) ∈
      extract_check_digits_from_md dupDoc ∧
    (['0', '3', '-', '0', '1', '-', '0', '1', '-', '0', '1'], ['5']) ∉
      simulate_android_import
        (update_android_csv (extract_check_digits_from_md dupDoc) []) := by
  refine ⟨by decide, by decide⟩

/-- C7 (amended): for every document in which no station code is extracted
with two different check digits, extracting the records, writing the output
table (merging into an empty existing table), and re-parsing it with the
simulated import yields exactly the set of extracted pairs, and no code is
duplicated in the re-parsed table. -/
theorem md_roundtrip (doc : List Char)
    (hcons : ∀ c d d', (c, d) ∈ extract_check_digits_from_md doc →
      (c, d') ∈ extract_check_digits_from_md doc → d = d') :
    (∀ p, p ∈ simulate_android_import
        (update_android_csv (extract_check_digits_from_md doc) []) ↔
      p ∈ extract_check_digits_from_md doc) ∧
    (keysOf (simulate_android_import
        (update_android_csv (extract_check_digits_from_md doc) []))).Nodup := by
  have hperm : List.Perm (updatedRecords (extract_check_digits_from_md doc) [])
      (mergeData [] (extract_check_digits_from_md doc)) :=
    List.perm_insertionSort pairLe _
  have hmem_merge : ∀ p, p ∈ mergeData [] (extract_check_digits_from_md doc) →
      p ∈ extract_check_digits_from_md doc := by
    intro p hp
    rcases mem_mergeData (extract_check_digits_from_md doc) p [] hp with h | h
    · cases h
    · exact h
  have hnd : (keysOf (mergeData [] (extract_check_digits_from_md doc))).Nodup :=
    nodup_keysOf_mergeData (extract_check_digits_from_md doc) [] (by simp [keysOf])
  have hinv : ∀ p ∈ updatedRecords (extract_check_digits_from_md doc) [],
      ',' ∉ p.1 ∧ ',' ∉ p.2 ∧ pyStrip p.2 = p.2 := by
    intro p hp
    exact extract_record_inv doc p (hmem_merge p ((List.mem_insertionSort pairLe).mp hp))
  have hsim : simulate_android_import
      (update_android_csv (extract_check_digits_from_md doc) []) =
      updatedRecords (extract_check_digits_from_md doc) [] := by
    rw [update_android_csv]
    exact simulate_writeTable _ hinv
  rw [hsim]
  constructor
  · intro p
    constructor
    · intro hp
      exact hmem_merge p ((List.mem_insertionSort pairLe).mp hp)
    · intro hp
      apply (List.mem_insertionSort pairLe).mpr
      have hkey : p.1 ∈ keysOf (mergeData [] (extract_check_digits_from_md doc)) := by
        rw [mem_keysOf_mergeData (extract_check_digits_from_md doc) p.1 []]
        exact Or.inr (List.mem_map_of_mem Prod.fst hp)
      obtain ⟨d', hd'⟩ := lookupRec_is_some _ p.1 hkey
      have hmm : (p.1, d') ∈ mergeData [] (extract_check_digits_from_md doc) :=
        lookupRec_mem _ p.1 d' hd'
      have hde : d' = p.2 := hcons p.1 d' p.2 (hmem_merge _ hmm) (by
        rw [show (p.1, p.2) = p from rfl]
        exact hp)
      rw [← show (p.1, p.2) = p from rfl, ← hde]
      exact hmm
  · exact ((hperm.map Prod.fst).nodup_iff).mpr hnd

/-- Witness for the amended C7 at the one-line document `"03-01-01-01--5"`. -/
theorem md_roundtrip_witness :
    (∀ p, p ∈ simulate_android_import
        (update_android_csv (extract_check_digits_from_md oneLineDoc) []) ↔
      p ∈ extract_check_digits_from_md oneLineDoc) ∧
    (keysOf (simulate_android_import
        (update_android_csv (extract_check_digits_from_md oneLineDoc) []))).Nodup :=
  md_roundtrip oneLineDoc (by
    intro c d d' h1 h2
    rw [show extract_check_digits_from_md oneLineDoc =
        [(['0', '3', '-', '0', '1', '-', '0', '1', '-', '0', '1'], ['5'])] from by decide]
      at h1 h2
    have hd : d = ['5'] := congrArg Prod.snd (List.mem_singleton.mp h1)
    have hd' : d' = ['5'] := congrArg Prod.snd (List.mem_singleton.mp h2)
    rw [hd, hd'])

/-- C8: when a station code is present in both the existing table and the
markdown records (each with duplicate-free keys) with different check digits,
the markdown value wins in the written records, and the record count is the
cardinality of the union of the two key sets — a shared code is counted
once. -/
theorem merge_last_write_wins (station_data existing : List StationRec)
    (c dmd dex : List Char)
    (hex : (keysOf existing).Nodup) (hmd : (keysOf station_data).Nodup)
    (hmem : (c, dmd) ∈ station_data)
    (hboth : lookupRec existing c = some dex) (hdiff : dex ≠ dmd) :
    lookupRec (updatedRecords station_data existing) c = some dmd ∧
    (updatedRecords station_data existing).length =
      ((keysOf existing).toFinset ∪ (keysOf station_data).toFinset).card := by
  have hperm : List.Perm (updatedRecords station_data existing)
      (mergeData existing station_data) := List.perm_insertionSort pairLe _
  have hnd : (keysOf (updatedRecords station_data existing)).Nodup :=
    ((hperm.map Prod.fst).nodup_iff).mpr (nodup_keysOf_mergeData station_data existing hex)
  constructor
  · rw [lookupRec_eq_some_iff _ _ _ hnd]
    exact hperm.mem_iff.mpr
      (lookupRec_mem _ _ _ (lookupRec_mergeData_incoming station_data c dmd hmd hmem existing))
  · rw [hperm.length_eq]
    exact mergeData_length station_data existing hex

/-- Witness for C8: code `"a"` maps to `"1"` in the existing table and to
`"2"` in the markdown records; after the merge it maps to `"2"` and is
counted once. -/
theorem merge_last_write_wins_witness :
    lookupRec (updatedRecords [(['a'], ['2'])] [(['a'], ['1'])]) ['a'] = some ['2'] ∧
    (updatedRecords [(['a'], ['2'])] [(['a'], ['1'])]).length =
      ((keysOf [(['a'], ['1'])]).toFinset ∪ (keysOf [(['a'], ['2'])]).toFinset).card :=
  merge_last_write_wins [(['a'], ['2'])] [(['a'], ['1'])] ['a'] ['2'] ['1']
    (by decide) (by decide) (by decide) (by decide) (by decide)

/-- C9 counterexample: adding aisle 59 when the existing rows already contain
station `"59-01"` makes `add_aisle_to_csv` write two records with the same
station_number — the function never deduplicates, so the uniqueness part of
the claim fails. -/
theorem add_aisle_duplicate_counterexample :
    add_aisle_to_csv 59 [some 20] [(['5', '9', '-', '0', '1'], ['1', '0'])] =
      [csvHeader,
       ['5', '9', '-', '0', '1', ',', '1', '0'],
       ['5', '9', '-', '0', '1', ',', '2', '0']] ∧
    ¬ (keysOf (simulate_android_import
        (add_aisle_to_csv 59 [some 20]
          [(['5', '9', '-', '0', '1'], ['1', '0'])]))).Nodup := by
  refine ⟨by decide, by decide⟩

/-- C9 (amended): every table written by `update_android_csv` (from an
existing table with duplicate-free keys) is the header followed by records
strictly sorted by station number — hence also duplicate-free; every table
written by `add_aisle_to_csv` is the header followed by records sorted
(non-strictly) by station number, but may contain duplicate station numbers
when the new aisle overlaps the existing rows. -/
theorem csv_tables_wellformed :
    (∀ station_data existing, (keysOf existing).Nodup →
      ∃ rows, update_android_csv station_data existing =
          csvHeader :: rows.map serializeRow ∧
        List.Pairwise (fun p q : StationRec => p.1 < q.1) rows) ∧
    (∀ aisle check_digits existing_rows,
      ∃ rows, add_aisle_to_csv aisle check_digits existing_rows =
          csvHeader :: rows.map serializeRow ∧
        List.Pairwise (fun p q : StationRec => p.1 ≤ q.1) rows) := by
  constructor
  · intro sd e he
    refine ⟨updatedRecords sd e, rfl, ?_⟩
    have hperm : List.Perm (updatedRecords sd e) (mergeData e sd) :=
      List.perm_insertionSort pairLe _
    have hnd : (keysOf (updatedRecords sd e)).Nodup :=
      ((hperm.map Prod.fst).nodup_iff).mpr (nodup_keysOf_mergeData sd e he)
    have hsorted : List.Pairwise pairLe (updatedRecords sd e) :=
      List.sorted_insertionSort pairLe (mergeData e sd)
    have hneq : List.Pairwise (fun p q : StationRec => p.1 ≠ q.1) (updatedRecords sd e) :=
      List.pairwise_map.mp hnd
    refine (hsorted.and hneq).imp ?_
    rintro p q ⟨hle, hne⟩
    rcases hle with hlt | ⟨heq, -⟩
    · exact hlt
    · exact absurd heq hne
  · intro aisle cds rows
    exact ⟨List.insertionSort keyLe (rows ++ aisleRows aisle 1 cds), rfl,
      List.sorted_insertionSort keyLe _⟩

/-- Witness for the amended C9 at a one-record update of a one-record table. -/
theorem csv_tables_wellformed_witness :
    ∃ rows, update_android_csv [(['a'], ['2'])] [(['b'], ['1'])] =
        csvHeader :: rows.map serializeRow ∧
      List.Pairwise (fun p q : StationRec => p.1 < q.1) rows :=
  csv_tables_wellformed.1 [(['a'], ['2'])] [(['b'], ['1'])] (by decide)

/-- C10 counterexample: on the document `"03-01-01-01--123"` the extraction
captures the check digit `"123"` of length 3 — the regex accepts any digit
run of length at least 1, so "at most 2 digits" fails. -/
theorem extract_long_check_digit_counterexample :
    extract_check_digits_from_md longDigitDoc =
      [(['0', '3', '-', '0', '1', '-', '0', '1', '-', '0', '1'], ['1', '2', '3'])] ∧
    ∃ p ∈ extract_check_digits_from_md longDigitDoc, ¬ p.2.length ≤ 2 := by
  refine ⟨by decide,
    ⟨(['0', '3', '-', '0', '1', '-', '0', '1', '-', '0', '1'], ['1', '2', '3']),
      by decide, by decide⟩⟩

/-- C10 (amended): every pair extracted from a document has a nonempty,
all-digit check digit (of any length, not only 1–2), comes from a line
matching the literal shape (lines that do not match contribute no pair), and
its code has the canonical shape `03-AA-SS-01` with digit segments. -/
theorem extract_check_digit_shape (doc : List Char) (c d : List Char)
    (h : (c, d) ∈ extract_check_digits_from_md doc) :
    d ≠ [] ∧ (∀ x ∈ d, x.isDigit = true) ∧
    (∃ line ∈ splitChar '\n' doc, parseMdLine line = some (c, d)) ∧
    ∃ a1 a2 s1 s2, a1.isDigit = true ∧ a2.isDigit = true ∧ s1.isDigit = true ∧
      s2.isDigit = true ∧ c = ['0', '3', '-', a1, a2, '-', s1, s2, '-', '0', '1'] := by
  obtain ⟨line, hline, hp⟩ := mem_extract doc (c, d) h
  obtain ⟨h1, h2, h3⟩ := parseMdLine_some line c d hp
  exact ⟨h1, h2, ⟨line, hline, hp⟩, h3⟩

/-- Witness for the amended C10 at the one-line document `"03-01-01-01--5"`. -/
theorem extract_check_digit_shape_witness :
    (['5'] : List Char) ≠ [] ∧ (∀ x ∈ (['5'] : List Char), x.isDigit = true) ∧
    (∃ line ∈ splitChar '\n' oneLineDoc,
      parseMdLine line =
        some (['0', '3', '-', '0', '1', '-', '0', '1', '-', '0', '1'], ['5'])) ∧
    ∃ a1 a2 s1 s2, a1.isDigit = true ∧ a2.isDigit = true ∧ s1.isDigit = true ∧
      s2.isDigit = true ∧
      (['0', '3', '-', '0', '1', '-', '0', '1', '-', '0', '1'] : List Char) =
        ['0', '3', '-', a1, a2, '-', s1, s2, '-', '0', '1'] :=
  extract_check_digit_shape oneLineDoc
    ['0', '3', '-', '0', '1', '-', '0', '1', '-', '0', '1'] ['5'] (by decide)

end PalletManager
